/-
Verification of the prestomanifesto reconciliation engine (main.go).

The file shallowly embeds the Go program: pure helpers become Lean functions,
the registry client (genuinetools/reg) is passed in as oracle functions
returning `Except`, the shared `digests` map mutated under `sync.Mutex`
becomes an association list threaded through a sequential fold (each Go
critical section is one atomic update; the errgroup's observable result on
success is the same fold, and on failure the first error).

Go's `strings.Split` / `strings.Join` are modelled for one-character
separators (the only separators used: "," and "/") by `goSplit` / `goJoin`.
-/
import Mathlib

set_option linter.unusedVariables false
set_option linter.unusedSectionVars false

deriving instance DecidableEq for Except

/-- Splitting a character list at every occurrence of `c`; `[]` maps to
`[[]]`, matching Go `strings.Split` which never returns an empty slice. -/
def splitChars (c : Char) : List Char → List (List Char)
  | [] => [[]]
  | x :: xs =>
    match splitChars c xs with
    | [] => [[]]
    | y :: ys => if x = c then [] :: y :: ys else (x :: y) :: ys

/-- Go `strings.Split s (String.singleton c)` for a one-character separator. -/
def goSplit (s : String) (c : Char) : List String :=
  (splitChars c s.data).map String.mk

/-- Go `strings.Join parts sep`. -/
def goJoin (sep : String) : List String → String
  | [] => ""
  | [x] => x
  | x :: y :: ys => x ++ sep ++ goJoin sep (y :: ys)

/-- Inner loop of `processArch` (main.go lines 245-249): membership of the
prefix in the `validArch` list. -/
def wantedArch (pfx : String) : List String → Bool
  | [] => false
  | v :: rest => if pfx = v then true else wantedArch pfx rest

/-- `processArch` (main.go lines 242-257): walk `allArchs`; on a match the
inner loop over `validArch` decides whether the architecture is processed,
returning `(prefix, true)` on a match and `(prefix, false)` after the loop;
if no element of `allArchs` matches, return `("", true)` (top level repo). -/
def processArch (pfx : String) (allArchs validArch : List String) : String × Bool :=
  match allArchs with
  | [] => ("", true)
  | arch :: rest =>
    if pfx = arch then (pfx, wantedArch pfx validArch)
    else processArch pfx rest validArch

/-- The value type of the `digests` map in `getUpdates` (main.go lines
103-106): `digs map[digest.Digest]int` and `archs []string`.  The Go map is
modelled as an association list; a key absent from the list corresponds to a
key absent from the Go map (whose read yields the zero value 0). -/
structure ContainerInfo (D : Type) where
  digs : List (D × Int)
  archs : List String
deriving DecidableEq, Inhabited

/-- The `digests map[string]containerInfo` shared state of `getUpdates`. -/
abbrev Balances (D : Type) := List (String × ContainerInfo D)

/-- Go map read `digs[d]`: first matching entry, zero value 0 when absent. -/
def digsGet {D : Type} [DecidableEq D] (l : List (D × Int)) (d : D) : Int :=
  match l with
  | [] => 0
  | (k, v) :: rest => if d = k then v else digsGet rest d

/-- Go map write `digs[d] = v`: overwrite the matching entry or append. -/
def digsSet {D : Type} [DecidableEq D] (l : List (D × Int)) (d : D) (v : Int) : List (D × Int) :=
  match l with
  | [] => [(d, v)]
  | (k, w) :: rest => if d = k then (d, v) :: rest else (k, w) :: digsSet rest d v

/-- Go map read `digests[rt]` as an `Option` (the `, ok` form). -/
def balGet {D : Type} (m : Balances D) (rt : String) : Option (ContainerInfo D) :=
  match m with
  | [] => none
  | (k, info) :: rest => if rt = k then some info else balGet rest rt

/-- Go map write `digests[rt] = info`. -/
def balSet {D : Type} (m : Balances D) (rt : String) (info : ContainerInfo D) : Balances D :=
  match m with
  | [] => [(rt, info)]
  | (k, i0) :: rest => if rt = k then (rt, info) :: rest else (k, i0) :: balSet rest rt info

/-- The critical section of the architecture-image branch (main.go lines
139-149): get-or-create the `containerInfo`, append the architecture to
`archs`, increment the digest's count, store back. -/
def applyArchObs {D : Type} [DecidableEq D] (m : Balances D) (rt arch : String) (dig : D) :
    Balances D :=
  let ee := (balGet m rt).getD ⟨[], []⟩
  balSet m rt ⟨digsSet ee.digs dig (digsGet ee.digs dig + 1), ee.archs ++ [arch]⟩

/-- The `if digests[repoTag].digs == nil` guard of the top-level branch
(main.go lines 157-162): entries are only ever stored with a freshly made
(non-nil) `digs` map, so the guard fires exactly when the key is absent. -/
def ensure {D : Type} (m : Balances D) (rt : String) : Balances D :=
  match balGet m rt with
  | none => balSet m rt ⟨[], []⟩
  | some _ => m

/-- One iteration of the decrement loop (main.go lines 163-167):
`digests[repoTag].digs[dig]--` (`archs` is left unchanged). -/
def decStep {D : Type} [DecidableEq D] (rt : String) (m : Balances D) (dig : D) : Balances D :=
  let ee := (balGet m rt).getD ⟨[], []⟩
  balSet m rt ⟨digsSet ee.digs dig (digsGet ee.digs dig - 1), ee.archs⟩

/-- The critical section of the top-level branch (main.go lines 156-168):
ensure the entry exists, then decrement once per manifest-list entry. -/
def applyTopObs {D : Type} [DecidableEq D] (m : Balances D) (rt : String) (ds : List D) :
    Balances D :=
  ds.foldl (decStep rt) (ensure m rt)

/-- The signed count the map stores for digest `d` of `rt` (0 when absent). -/
def balCount {D : Type} [DecidableEq D] (m : Balances D) (rt : String) (d : D) : Int :=
  match balGet m rt with
  | none => 0
  | some info => digsGet info.digs d

/-- The `archs` list stored for `rt` (`[]` when absent). -/
def balArchs {D : Type} (m : Balances D) (rt : String) : List String :=
  match balGet m rt with
  | none => []
  | some info => info.archs

/-- `updateInfo` (main.go lines 80-83). -/
structure UpdateInfo where
  repoTag : String
  archs : List String
deriving DecidableEq, Inhabited

/-- The scan after the crawl (main.go lines 178-190): a `repoTag` needs an
update iff some digest count in its balance is non-zero. -/
def updatesOf {D : Type} (m : Balances D) : List UpdateInfo :=
  m.filterMap (fun p =>
    if p.2.digs.any (fun q => q.2 != 0) then some ⟨p.1, p.2.archs⟩ else none)

/-- Stripping the architecture segment (main.go line 136):
`strings.Join(rSplit[1:], "/")`. -/
def stripArch (repo : String) : String :=
  goJoin "/" (goSplit repo '/').tail

/-- Classification of a repository by its first path segment (main.go lines
115-116): `processArch(strings.Split(repo, "/")[0], allArchs, validArch)`. -/
def classifyRepo (allArchs validArch : List String) (repo : String) : String × Bool :=
  processArch ((goSplit repo '/').headD "") allArchs validArch

/-- The body of one tag task (main.go lines 125-171).  `dOf` is
`reg.Digest` composed with `registry.ParseImage` (any error of either is the
task's error), `mOf` is `reg.ManifestList`. -/
def processTag {E D : Type} [DecidableEq D] (dOf : String → String → Except E D)
    (mOf : String → String → Except E (List D)) (repo tag arch : String) (isArch : Bool)
    (m : Balances D) : Except E (Balances D) :=
  if isArch then
    match dOf repo tag with
    | .error e => .error e
    | .ok dig => .ok (applyArchObs m (stripArch repo ++ ":" ++ tag) arch dig)
  else
    match mOf repo tag with
    | .error e => .error e
    | .ok ml => .ok (applyTopObs m (repo ++ ":" ++ tag) ml)

/-- The tag loop of one repository plus its `g.Wait()` (main.go lines
122-175): every tag task runs; the first error (in task order) is the
result.  Sequentialised: on success the final map is the fold of the
per-task critical sections, on failure the result is just the error. -/
def processTags {E D : Type} [DecidableEq D] (dOf : String → String → Except E D)
    (mOf : String → String → Except E (List D)) (repo arch : String) (isArch : Bool)
    (tags : List String) (m : Balances D) : Except E (Balances D) :=
  match tags with
  | [] => .ok m
  | tag :: rest =>
    match processTag dOf mOf repo tag arch isArch m with
    | .error e => .error e
    | .ok m2 => processTags dOf mOf repo arch isArch rest m2

/-- The repository loop of `getUpdates` (main.go lines 114-176): classify
each repository, skip it when `!ok`, otherwise run its tag tasks and abort
with the first error. -/
def buildBalances {E D : Type} [DecidableEq D] (dOf : String → String → Except E D)
    (mOf : String → String → Except E (List D)) (allArchs validArch : List String)
    (repoTags : List (String × List String)) (m : Balances D) : Except E (Balances D) :=
  match repoTags with
  | [] => .ok m
  | (repo, tags) :: rest =>
    if (classifyRepo allArchs validArch repo).2 = false then
      buildBalances dOf mOf allArchs validArch rest m
    else
      match processTags dOf mOf repo (classifyRepo allArchs validArch repo).1
          (decide ((classifyRepo allArchs validArch repo).1 ≠ "")) tags m with
      | .error e => .error e
      | .ok m2 => buildBalances dOf mOf allArchs validArch rest m2

/-- `getUpdates` (main.go lines 102-193): crawl into the balance map, then
emit one `updateInfo` per unbalanced repoTag; `nil, err` on any error. -/
def getUpdates {E D : Type} [DecidableEq D] (dOf : String → String → Except E D)
    (mOf : String → String → Except E (List D)) (allArchs validArch : List String)
    (repoTags : List (String × List String)) : Except E (List UpdateInfo) :=
  match buildBalances dOf mOf allArchs validArch repoTags [] with
  | .error e => .error e
  | .ok m => .ok (updatesOf m)

/-- `createCmd` (main.go line 86). -/
def createCmd : List String := ["docker", "manifest", "create", "--insecure", "--amend"]

/-- `pushCmd` (main.go line 87). -/
def pushCmd : List String := ["docker", "manifest", "push", "--insecure"]

/-- `pushUpdates` (main.go lines 85-100): for each record print the create
command (base command, top-level path, one arch-qualified path per entry of
`archs`) and then the push command (base command, top-level path).  The
printed lines are returned in print order. -/
def pushUpdates (updates : List UpdateInfo) (domain : String) : List String :=
  match updates with
  | [] => []
  | u :: rest =>
    let topLevel := domain ++ "/" ++ u.repoTag
    let cCmd := (createCmd ++ [topLevel]) ++ u.archs.map (fun a => domain ++ "/" ++ a ++ "/" ++ u.repoTag)
    goJoin " " cCmd :: goJoin " " (pushCmd ++ [topLevel]) :: pushUpdates rest domain

/-- `getAllRepoTags` (main.go lines 195-226): on catalog failure return the
error; otherwise run one tag-listing task per repository, merging successes
into the map, and return the map TOGETHER WITH the first task error
(`return repoTags, g.Wait()`). -/
def getAllRepoTags {E : Type} (catalog : Except E (List String))
    (tagsOf : String → Except E (List String)) :
    Except E (List (String × List String) × Option E) :=
  match catalog with
  | .error e => .error e
  | .ok repos =>
    .ok (repos.foldl (fun acc repo =>
      match tagsOf repo with
      | .ok tags => (acc.1 ++ [(repo, tags)], acc.2)
      | .error e =>
        match acc.2 with
        | some e0 => (acc.1, some e0)
        | none => (acc.1, some e)) ([], none))

/-- `run` (main.go lines 56-78) up to the update computation: collect the
inventory, return early on its error (discarding the partial map), then
compute the updates. -/
def runPipeline {E D : Type} [DecidableEq D] (catalog : Except E (List String))
    (tagsOf : String → Except E (List String)) (dOf : String → String → Except E D)
    (mOf : String → String → Except E (List D)) (allArchs validArch : List String) :
    Except E (List UpdateInfo) :=
  match getAllRepoTags catalog tagsOf with
  | .error e => .error e
  | .ok (_, some e) => .error e
  | .ok (repoTags, none) => getUpdates dOf mOf allArchs validArch repoTags

/-- Outcome of the argument validation in `main` (main.go lines 28-41). -/
inductive ConfigResult where
  | usageExit
  | fatalAllEmpty
  | fatalArchsEmpty
  | proceed (allArchs archs : List String) (domain : String)
deriving DecidableEq

/-- `main`'s argument validation (main.go lines 28-41): exit on a wrong
number of positional arguments, split both flag strings on commas, and run
the (dead, see `C9_empty_archs_not_fatal`) emptiness checks before
proceeding to the network. -/
def parseArgs (args : List String) (allArchsFlag archsFlag : String) : ConfigResult :=
  if args.length ≠ 1 then .usageExit
  else
    let allSplit := goSplit allArchsFlag ','
    let aSplit := goSplit archsFlag ','
    if allSplit.length = 0 then .fatalAllEmpty
    else if aSplit.length = 0 then .fatalArchsEmpty
    else .proceed allSplit aSplit (args.headD "")

/-- The successful value of an `Except`, if any. -/
def okValue {E D : Type} : Except E D → Option D
  | .ok v => some v
  | .error _ => none

/-- Spec-side helper: tag `tag` of architecture repository `repo` is one
"architecture-image observation" of digest `d` for repoTag `rt` when the
architecture-stripped repoTag matches and the digest fetch yields `d`. -/
def tagIncMatches {E D : Type} [DecidableEq D] (dOf : String → String → Except E D)
    (repo tag rt : String) (d : D) : Bool :=
  decide (stripArch repo ++ ":" ++ tag = rt ∧ okValue (dOf repo tag) = some d)

/-- Spec-side: the number of architecture-image observations of digest `d`
for repoTag `rt` — one per selected-architecture repo/tag fetch yielding it. -/
def archIncCount {E D : Type} [DecidableEq D] (dOf : String → String → Except E D)
    (allArchs validArch : List String) (repoTags : List (String × List String))
    (rt : String) (d : D) : Nat :=
  (repoTags.map (fun p =>
    if (classifyRepo allArchs validArch p.1).2 = true ∧ (classifyRepo allArchs validArch p.1).1 ≠ "" then
      p.2.countP (fun tag => tagIncMatches dOf p.1 tag rt d)
    else 0)).sum

/-- The multiplicity of `d` in the manifest list fetched for `repo:tag`
(0 when the fetch fails). -/
def mlCount {E D : Type} [DecidableEq D] (mOf : String → String → Except E (List D))
    (repo tag : String) (d : D) : Nat :=
  match mOf repo tag with
  | .ok l => l.count d
  | .error _ => 0

/-- Spec-side: the number of times digest `d` is declared across the
top-level manifest lists fetched for repoTag `rt` — one per list entry. -/
def topDecCount {E D : Type} [DecidableEq D] (mOf : String → String → Except E (List D))
    (allArchs validArch : List String) (repoTags : List (String × List String))
    (rt : String) (d : D) : Nat :=
  (repoTags.map (fun p =>
    if (classifyRepo allArchs validArch p.1).2 = true ∧ (classifyRepo allArchs validArch p.1).1 = "" then
      (p.2.map (fun tag => if p.1 ++ ":" ++ tag = rt then mlCount mOf p.1 tag d else 0)).sum
    else 0)).sum

/-- Spec-side: the architecture identifiers appended for repoTag `rt`, one
per selected-architecture repo/tag fetch whose stripped repoTag is `rt`, in
processing order. -/
def archContribs (allArchs validArch : List String) (repoTags : List (String × List String))
    (rt : String) : List String :=
  repoTags.flatMap (fun p =>
    if (classifyRepo allArchs validArch p.1).2 = true ∧ (classifyRepo allArchs validArch p.1).1 ≠ "" then
      p.2.flatMap (fun tag =>
        if stripArch p.1 ++ ":" ++ tag = rt then [(classifyRepo allArchs validArch p.1).1] else [])
    else [])

/-- The first fetch error the reconciliation crawl can encounter at
repository `repo`, tag `tag` (none when the repository is skipped or the
fetch succeeds). -/
def fetchError {E D : Type} [DecidableEq D] (dOf : String → String → Except E D)
    (mOf : String → String → Except E (List D)) (allArchs validArch : List String)
    (repo tag : String) : Option E :=
  if (classifyRepo allArchs validArch repo).2 = true then
    if (classifyRepo allArchs validArch repo).1 ≠ "" then
      match dOf repo tag with
      | .error e => some e
      | .ok _ => none
    else
      match mOf repo tag with
      | .error e => some e
      | .ok _ => none
  else none

/-- Well-formedness of the modelled maps: association-list keys are unique
(as they are for Go maps), at both levels. -/
def balWF {D : Type} (m : Balances D) : Prop :=
  (m.map Prod.fst).Nodup ∧ ∀ p ∈ m, (p.2.digs.map Prod.fst).Nodup

/-- One observation folded into the shared `digests` map: either the
critical section of an architecture-image fetch (main.go lines 139-149) or
that of a top-level manifest-list fetch (main.go lines 156-168). -/
inductive Obs (D : Type) where
  | archObs (rt arch : String) (dig : D)
  | topObs (rt : String) (ds : List D)
deriving DecidableEq

/-- Folding one observation into the map: exactly the two critical sections
of `getUpdates`. -/
def applyObs {D : Type} [DecidableEq D] (m : Balances D) : Obs D → Balances D
  | .archObs rt arch dig => applyArchObs m rt arch dig
  | .topObs rt ds => applyTopObs m rt ds

/-- The signed contribution of one observation to the count of digest `d`
under repoTag `rt`. -/
def obsDelta {D : Type} [DecidableEq D] (o : Obs D) (rt : String) (d : D) : Int :=
  match o with
  | .archObs rt2 _ dig => if rt = rt2 ∧ d = dig then 1 else 0
  | .topObs rt2 ds => if rt = rt2 then -(ds.count d : Int) else 0

/-- Whether an observation mentions digest `d` under repoTag `rt` (and hence
creates the corresponding key in the balance). -/
def touchesObs {D : Type} (o : Obs D) (rt : String) (d : D) : Prop :=
  match o with
  | .archObs rt2 _ dig => rt = rt2 ∧ d = dig
  | .topObs rt2 ds => rt = rt2 ∧ d ∈ ds

/-- The sum of the absolute values of the digest counts stored for `rt`. -/
def sumAbs {D : Type} (m : Balances D) (rt : String) : Int :=
  ((((balGet m rt).getD ⟨[], []⟩).digs).map (fun p => |p.2|)).sum

/-- Spec-side: the "create/amend manifest list" command line for one update
record — the base command, the top-level image path, then one
architecture-qualified image path per entry of `archs`, in order. -/
def specCreateLine (domain : String) (u : UpdateInfo) : String :=
  goJoin " " ((createCmd ++ [domain ++ "/" ++ u.repoTag]) ++
    u.archs.map (fun a => domain ++ "/" ++ a ++ "/" ++ u.repoTag))

/-- Spec-side: the "push manifest list" command line for one update record —
the base command and the top-level image path only. -/
def specPushLine (domain : String) (u : UpdateInfo) : String :=
  goJoin " " (pushCmd ++ [domain ++ "/" ++ u.repoTag])

/-- The tag-listing results that reach the merged map: one entry per
repository whose `reg.Tags` call succeeds, in catalog order. -/
def tagSuccesses {E : Type} (tagsOf : String → Except E (List String)) :
    List String → List (String × List String)
  | [] => []
  | r :: rest =>
    match tagsOf r with
    | .ok tags => (r, tags) :: tagSuccesses tagsOf rest
    | .error _ => tagSuccesses tagsOf rest

/-- The first tag-listing error, in catalog order (the error `g.Wait()`
reports in the sequentialised model). -/
def firstTagError {E : Type} (tagsOf : String → Except E (List String)) :
    List String → Option E
  | [] => none
  | r :: rest =>
    match tagsOf r with
    | .ok _ => firstTagError tagsOf rest
    | .error e => some e

section AssocLemmas

variable {E D : Type} [DecidableEq D]

theorem digsGet_digsSet_self (l : List (D × Int)) (d : D) (v : Int) :
    digsGet (digsSet l d v) d = v := by
  induction l with
  | nil => simp [digsSet, digsGet]
  | cons p rest ih =>
    obtain ⟨k, w⟩ := p
    by_cases h : d = k <;> simp [digsSet, digsGet, h, ih]

theorem digsGet_digsSet_ne (l : List (D × Int)) (d d2 : D) (v : Int) (h : d2 ≠ d) :
    digsGet (digsSet l d v) d2 = digsGet l d2 := by
  induction l with
  | nil => simp [digsSet, digsGet, h]
  | cons p rest ih =>
    obtain ⟨k, w⟩ := p
    by_cases hk : d = k
    · subst hk; simp [digsSet, digsGet, h]
    · by_cases h2 : d2 = k <;> simp [digsSet, digsGet, hk, h2, ih]

theorem balGet_balSet_self {D : Type} (m : Balances D) (rt : String) (info : ContainerInfo D) :
    balGet (balSet m rt info) rt = some info := by
  induction m with
  | nil => simp [balSet, balGet]
  | cons p rest ih =>
    obtain ⟨k, i0⟩ := p
    by_cases h : rt = k <;> simp [balSet, balGet, h, ih]

theorem balGet_balSet_ne {D : Type} (m : Balances D) (rt rt2 : String) (info : ContainerInfo D)
    (h : rt2 ≠ rt) : balGet (balSet m rt info) rt2 = balGet m rt2 := by
  induction m with
  | nil => simp [balSet, balGet, h]
  | cons p rest ih =>
    obtain ⟨k, i0⟩ := p
    by_cases hk : rt = k
    · subst hk; simp [balSet, balGet, h]
    · by_cases h2 : rt2 = k <;> simp [balSet, balGet, hk, h2, ih]

theorem balCount_eq_getD (m : Balances D) (rt : String) (d : D) :
    balCount m rt d = digsGet ((balGet m rt).getD ⟨[], []⟩).digs d := by
  cases h : balGet m rt <;> simp [balCount, h, digsGet]

theorem balArchs_eq_getD {D : Type} (m : Balances D) (rt : String) :
    balArchs m rt = ((balGet m rt).getD ⟨[], []⟩).archs := by
  cases h : balGet m rt <;> simp [balArchs, h]

theorem balCount_applyArchObs (m : Balances D) (rt arch : String) (dig : D) (rt2 : String)
    (d : D) :
    balCount (applyArchObs m rt arch dig) rt2 d =
      balCount m rt2 d + (if rt2 = rt ∧ d = dig then 1 else 0) := by
  by_cases h1 : rt2 = rt
  · subst h1
    rw [balCount_eq_getD m, balCount, applyArchObs, balGet_balSet_self]
    by_cases h2 : d = dig
    · subst h2; simp [digsGet_digsSet_self]
    · simp [digsGet_digsSet_ne _ _ _ _ h2, h2]
  · rw [balCount, applyArchObs, balGet_balSet_ne _ _ _ _ h1, ← balCount, if_neg]
    · ring
    · exact fun hc => h1 hc.1

theorem balCount_ensure (m : Balances D) (rt rt2 : String) (d : D) :
    balCount (ensure m rt) rt2 d = balCount m rt2 d := by
  rw [ensure]
  cases h : balGet m rt with
  | some info => rfl
  | none =>
    by_cases h1 : rt2 = rt
    · subst h1; rw [balCount, balGet_balSet_self, balCount, h]; simp [digsGet]
    · rw [balCount, balGet_balSet_ne _ _ _ _ h1, ← balCount]

theorem balCount_decStep (m : Balances D) (rt : String) (dig : D) (rt2 : String) (d : D) :
    balCount (decStep rt m dig) rt2 d =
      balCount m rt2 d - (if rt2 = rt ∧ d = dig then 1 else 0) := by
  by_cases h1 : rt2 = rt
  · subst h1
    rw [balCount_eq_getD m, balCount, decStep, balGet_balSet_self]
    by_cases h2 : d = dig
    · subst h2; simp [digsGet_digsSet_self]
    · simp [digsGet_digsSet_ne _ _ _ _ h2, h2]
  · rw [balCount, decStep, balGet_balSet_ne _ _ _ _ h1, ← balCount, if_neg]
    · ring
    · exact fun hc => h1 hc.1

theorem balCount_foldl_decStep (ds : List D) (m : Balances D) (rt rt2 : String) (d : D) :
    balCount (ds.foldl (decStep rt) m) rt2 d =
      balCount m rt2 d - (if rt2 = rt then (ds.count d : Int) else 0) := by
  induction ds generalizing m with
  | nil => simp
  | cons a ds ih =>
    rw [List.foldl_cons, ih, balCount_decStep]
    by_cases h1 : rt2 = rt
    · subst h1
      by_cases h2 : d = a
      · subst h2; simp [List.count_cons_self]; ring
      · simp [List.count_cons_of_ne h2, h2]
    · simp [h1]

theorem balCount_applyTopObs (m : Balances D) (rt : String) (ds : List D) (rt2 : String)
    (d : D) :
    balCount (applyTopObs m rt ds) rt2 d =
      balCount m rt2 d - (if rt2 = rt then (ds.count d : Int) else 0) := by
  rw [applyTopObs, balCount_foldl_decStep, balCount_ensure]

theorem balArchs_applyArchObs (m : Balances D) (rt arch : String) (dig : D) (rt2 : String) :
    balArchs (applyArchObs m rt arch dig) rt2 =
      balArchs m rt2 ++ (if rt2 = rt then [arch] else []) := by
  by_cases h1 : rt2 = rt
  · subst h1
    rw [balArchs_eq_getD m, balArchs, applyArchObs, balGet_balSet_self]
    simp
  · rw [balArchs, applyArchObs, balGet_balSet_ne _ _ _ _ h1, ← balArchs, if_neg h1]
    simp

theorem balArchs_ensure {D : Type} (m : Balances D) (rt rt2 : String) :
    balArchs (ensure m rt) rt2 = balArchs m rt2 := by
  rw [ensure]
  cases h : balGet m rt with
  | some info => rfl
  | none =>
    by_cases h1 : rt2 = rt
    · subst h1; rw [balArchs, balGet_balSet_self, balArchs, h]
    · rw [balArchs, balGet_balSet_ne _ _ _ _ h1, ← balArchs]

theorem balArchs_decStep (m : Balances D) (rt : String) (dig : D) (rt2 : String) :
    balArchs (decStep rt m dig) rt2 = balArchs m rt2 := by
  by_cases h1 : rt2 = rt
  · subst h1
    rw [balArchs_eq_getD m, balArchs, decStep, balGet_balSet_self]
  · rw [balArchs, decStep, balGet_balSet_ne _ _ _ _ h1, ← balArchs]

theorem balArchs_foldl_decStep (ds : List D) (m : Balances D) (rt rt2 : String) :
    balArchs (ds.foldl (decStep rt) m) rt2 = balArchs m rt2 := by
  induction ds generalizing m with
  | nil => simp
  | cons a ds ih => rw [List.foldl_cons, ih, balArchs_decStep]

theorem balArchs_applyTopObs (m : Balances D) (rt : String) (ds : List D) (rt2 : String) :
    balArchs (applyTopObs m rt ds) rt2 = balArchs m rt2 := by
  rw [applyTopObs, balArchs_foldl_decStep, balArchs_ensure]

end AssocLemmas

section FoldLemmas

variable {E D : Type} [DecidableEq D]
variable {dOf : String → String → Except E D} {mOf : String → String → Except E (List D)}

theorem balCount_processTags_arch {repo arch : String} {tags : List String}
    {m0 m1 : Balances D} (rt : String) (d : D)
    (h : processTags dOf mOf repo arch true tags m0 = .ok m1) :
    balCount m1 rt d =
      balCount m0 rt d + (tags.countP (fun tag => tagIncMatches dOf repo tag rt d) : Int) := by
  induction tags generalizing m0 with
  | nil =>
    rw [processTags] at h
    injection h with h
    subst h
    simp
  | cons tag rest ih =>
    rw [processTags] at h
    cases hd : dOf repo tag with
    | error e => rw [processTag, if_pos rfl, hd] at h; exact absurd h (by simp)
    | ok dig =>
      rw [processTag, if_pos rfl, hd] at h
      rw [ih h, balCount_applyArchObs, List.countP_cons]
      by_cases hmatch : rt = stripArch repo ++ ":" ++ tag ∧ d = dig
      · obtain ⟨h1, h2⟩ := hmatch
        subst h1
        subst h2
        have hp : tagIncMatches dOf repo tag (stripArch repo ++ ":" ++ tag) d = true := by
          simp [tagIncMatches, hd, okValue]
        simp [hp]
        ring
      · have hp : tagIncMatches dOf repo tag rt d = false := by
          simp only [tagIncMatches, hd, okValue, decide_eq_false_iff_not]
          rintro ⟨h1, h2⟩
          injection h2 with h2
          exact hmatch ⟨h1.symm, h2.symm⟩
        simp [hp, hmatch]

theorem balCount_processTags_top {repo arch : String} {tags : List String}
    {m0 m1 : Balances D} (rt : String) (d : D)
    (h : processTags dOf mOf repo arch false tags m0 = .ok m1) :
    balCount m1 rt d =
      balCount m0 rt d -
        ((tags.map (fun tag => if repo ++ ":" ++ tag = rt then mlCount mOf repo tag d else 0)).sum : Int) := by
  induction tags generalizing m0 with
  | nil =>
    rw [processTags] at h
    injection h with h
    subst h
    simp
  | cons tag rest ih =>
    rw [processTags] at h
    cases hml : mOf repo tag with
    | error e => rw [processTag, if_neg (by simp), hml] at h; exact absurd h (by simp)
    | ok ml =>
      rw [processTag, if_neg (by simp), hml] at h
      rw [ih h, balCount_applyTopObs, List.map_cons, List.sum_cons]
      have hcnt : mlCount mOf repo tag d = ml.count d := by simp [mlCount, hml]
      by_cases hmatch : rt = repo ++ ":" ++ tag
      · rw [if_pos hmatch, if_pos hmatch.symm, hcnt]
        push_cast
        ring
      · rw [if_neg hmatch, if_neg (fun hx => hmatch hx.symm)]
        push_cast
        ring

theorem balCount_buildBalances {allArchs validArch : List String}
    {repoTags : List (String × List String)} {m0 m : Balances D} (rt : String) (d : D)
    (h : buildBalances dOf mOf allArchs validArch repoTags m0 = .ok m) :
    balCount m rt d =
      balCount m0 rt d + (archIncCount dOf allArchs validArch repoTags rt d : Int)
        - (topDecCount mOf allArchs validArch repoTags rt d : Int) := by
  induction repoTags generalizing m0 with
  | nil =>
    rw [buildBalances] at h
    injection h with h
    subst h
    simp [archIncCount, topDecCount]
  | cons p rest ih =>
    obtain ⟨repo, tags⟩ := p
    rw [buildBalances] at h
    by_cases hc : (classifyRepo allArchs validArch repo).2 = false
    · rw [if_pos hc] at h
      rw [ih h]
      simp [archIncCount, topDecCount, hc]
    · rw [if_neg hc] at h
      have hc2 : (classifyRepo allArchs validArch repo).2 = true := by
        cases hx : (classifyRepo allArchs validArch repo).2
        · exact absurd hx hc
        · rfl
      by_cases harch : (classifyRepo allArchs validArch repo).1 = ""
      · have hdec : decide ((classifyRepo allArchs validArch repo).1 ≠ "") = false := by
          simp [harch]
        rw [hdec] at h
        cases hpt : processTags dOf mOf repo (classifyRepo allArchs validArch repo).1 false tags m0 with
        | error e => rw [hpt] at h; exact absurd h (by simp)
        | ok m2 =>
          rw [hpt] at h
          rw [ih h, balCount_processTags_top rt d hpt]
          simp only [archIncCount, topDecCount, List.map_cons, List.sum_cons]
          rw [if_neg (fun hx => hx.2 harch), if_pos ⟨hc2, harch⟩]
          push_cast
          ring
      · have hdec : decide ((classifyRepo allArchs validArch repo).1 ≠ "") = true := by
          simp [harch]
        rw [hdec] at h
        cases hpt : processTags dOf mOf repo (classifyRepo allArchs validArch repo).1 true tags m0 with
        | error e => rw [hpt] at h; exact absurd h (by simp)
        | ok m2 =>
          rw [hpt] at h
          rw [ih h, balCount_processTags_arch rt d hpt]
          simp only [archIncCount, topDecCount, List.map_cons, List.sum_cons]
          rw [if_pos ⟨hc2, harch⟩, if_neg (fun hx => harch hx.2)]
          push_cast
          ring

theorem balArchs_processTags_arch {repo arch : String} {tags : List String}
    {m0 m1 : Balances D} (rt : String)
    (h : processTags dOf mOf repo arch true tags m0 = .ok m1) :
    balArchs m1 rt =
      balArchs m0 rt ++
        tags.flatMap (fun tag => if stripArch repo ++ ":" ++ tag = rt then [arch] else []) := by
  induction tags generalizing m0 with
  | nil =>
    rw [processTags] at h
    injection h with h
    subst h
    simp
  | cons tag rest ih =>
    rw [processTags] at h
    cases hd : dOf repo tag with
    | error e => rw [processTag, if_pos rfl, hd] at h; exact absurd h (by simp)
    | ok dig =>
      rw [processTag, if_pos rfl, hd] at h
      rw [ih h, balArchs_applyArchObs, List.flatMap_cons]
      by_cases hmatch : rt = stripArch repo ++ ":" ++ tag
      · rw [if_pos hmatch, if_pos hmatch.symm, List.append_assoc]
      · rw [if_neg hmatch, if_neg (fun hx => hmatch hx.symm)]
        simp

theorem balArchs_processTags_top {repo arch : String} {tags : List String}
    {m0 m1 : Balances D} (rt : String)
    (h : processTags dOf mOf repo arch false tags m0 = .ok m1) :
    balArchs m1 rt = balArchs m0 rt := by
  induction tags generalizing m0 with
  | nil =>
    rw [processTags] at h
    injection h with h
    subst h
    rfl
  | cons tag rest ih =>
    rw [processTags] at h
    cases hml : mOf repo tag with
    | error e => rw [processTag, if_neg (by simp), hml] at h; exact absurd h (by simp)
    | ok ml =>
      rw [processTag, if_neg (by simp), hml] at h
      rw [ih h, balArchs_applyTopObs]

theorem balArchs_buildBalances {allArchs validArch : List String}
    {repoTags : List (String × List String)} {m0 m : Balances D} (rt : String)
    (h : buildBalances dOf mOf allArchs validArch repoTags m0 = .ok m) :
    balArchs m rt = balArchs m0 rt ++ archContribs allArchs validArch repoTags rt := by
  induction repoTags generalizing m0 with
  | nil =>
    rw [buildBalances] at h
    injection h with h
    subst h
    simp [archContribs]
  | cons p rest ih =>
    obtain ⟨repo, tags⟩ := p
    rw [buildBalances] at h
    by_cases hc : (classifyRepo allArchs validArch repo).2 = false
    · rw [if_pos hc] at h
      rw [ih h]
      simp [archContribs, hc]
    · rw [if_neg hc] at h
      have hc2 : (classifyRepo allArchs validArch repo).2 = true := by
        cases hx : (classifyRepo allArchs validArch repo).2
        · exact absurd hx hc
        · rfl
      by_cases harch : (classifyRepo allArchs validArch repo).1 = ""
      · have hdec : decide ((classifyRepo allArchs validArch repo).1 ≠ "") = false := by
          simp [harch]
        rw [hdec] at h
        cases hpt : processTags dOf mOf repo (classifyRepo allArchs validArch repo).1 false tags m0 with
        | error e => rw [hpt] at h; exact absurd h (by simp)
        | ok m2 =>
          rw [hpt] at h
          rw [ih h, balArchs_processTags_top rt hpt]
          simp only [archContribs, List.flatMap_cons]
          rw [if_neg (fun hx => hx.2 harch)]
          simp [archContribs]
      · have hdec : decide ((classifyRepo allArchs validArch repo).1 ≠ "") = true := by
          simp [harch]
        rw [hdec] at h
        cases hpt : processTags dOf mOf repo (classifyRepo allArchs validArch repo).1 true tags m0 with
        | error e => rw [hpt] at h; exact absurd h (by simp)
        | ok m2 =>
          rw [hpt] at h
          rw [ih h, balArchs_processTags_arch rt hpt]
          simp only [archContribs, List.flatMap_cons]
          rw [if_pos ⟨hc2, harch⟩, List.append_assoc]

end FoldLemmas


section WFLemmas

variable {E D : Type} [DecidableEq D]

theorem mem_keys_digsSet (l : List (D × Int)) (d : D) (v : Int) (x : D) :
    x ∈ (digsSet l d v).map Prod.fst ↔ x = d ∨ x ∈ l.map Prod.fst := by
  induction l with
  | nil => simp [digsSet]
  | cons p rest ih =>
    obtain ⟨k, w⟩ := p
    by_cases h : d = k
    · subst h
      simp [digsSet]
    · simp [digsSet, h, ih]
      tauto

theorem nodup_keys_digsSet (l : List (D × Int)) (d : D) (v : Int)
    (h : (l.map Prod.fst).Nodup) : ((digsSet l d v).map Prod.fst).Nodup := by
  induction l with
  | nil => simp [digsSet]
  | cons p rest ih =>
    obtain ⟨k, w⟩ := p
    simp only [List.map_cons, List.nodup_cons] at h
    by_cases hk : d = k
    · subst hk
      simp [digsSet, List.nodup_cons, h.1, h.2]
    · simp only [digsSet, if_neg hk, List.map_cons, List.nodup_cons]
      refine ⟨fun hx => ?_, ih h.2⟩
      rcases (mem_keys_digsSet rest d v k).1 hx with h1 | h1
      · exact hk h1.symm
      · exact h.1 h1

theorem mem_keys_balSet {D : Type} (m : Balances D) (rt : String) (info : ContainerInfo D)
    (x : String) : x ∈ (balSet m rt info).map Prod.fst ↔ x = rt ∨ x ∈ m.map Prod.fst := by
  induction m with
  | nil => simp [balSet]
  | cons p rest ih =>
    obtain ⟨k, i0⟩ := p
    by_cases h : rt = k
    · subst h
      simp [balSet]
    · simp [balSet, h, ih]
      tauto

theorem nodup_keys_balSet {D : Type} (m : Balances D) (rt : String) (info : ContainerInfo D)
    (h : (m.map Prod.fst).Nodup) : ((balSet m rt info).map Prod.fst).Nodup := by
  induction m with
  | nil => simp [balSet]
  | cons p rest ih =>
    obtain ⟨k, i0⟩ := p
    simp only [List.map_cons, List.nodup_cons] at h
    by_cases hk : rt = k
    · subst hk
      simp [balSet, List.nodup_cons, h.1, h.2]
    · simp only [balSet, if_neg hk, List.map_cons, List.nodup_cons]
      refine ⟨fun hx => ?_, ih h.2⟩
      rcases (mem_keys_balSet rest rt info k).1 hx with h1 | h1
      · exact hk h1.symm
      · exact h.1 h1

theorem mem_balSet {D : Type} (m : Balances D) (rt : String) (info : ContainerInfo D)
    (p : String × ContainerInfo D) (h : p ∈ balSet m rt info) : p = (rt, info) ∨ p ∈ m := by
  induction m with
  | nil => simp [balSet] at h; simp [h]
  | cons q rest ih =>
    obtain ⟨k, i0⟩ := q
    by_cases hk : rt = k
    · subst hk
      simp only [balSet, if_pos rfl] at h
      rcases List.mem_cons.1 h with h | h
      · exact Or.inl h
      · exact Or.inr (List.mem_cons_of_mem _ h)
    · simp only [balSet, if_neg hk] at h
      rcases List.mem_cons.1 h with h | h
      · exact Or.inr (List.mem_cons.2 (Or.inl h))
      · rcases ih h with h1 | h1
        · exact Or.inl h1
        · exact Or.inr (List.mem_cons_of_mem _ h1)

theorem balGet_mem {D : Type} {m : Balances D} {rt : String} {info : ContainerInfo D}
    (h : balGet m rt = some info) : (rt, info) ∈ m := by
  induction m with
  | nil => simp [balGet] at h
  | cons p rest ih =>
    obtain ⟨k, i0⟩ := p
    by_cases hk : rt = k
    · subst hk
      rw [balGet, if_pos rfl] at h
      injection h with h
      subst h
      exact List.mem_cons_self _ _
    · rw [balGet, if_neg hk] at h
      exact List.mem_cons_of_mem _ (ih h)

theorem mem_balGet {D : Type} {m : Balances D} {rt : String} {info : ContainerInfo D}
    (hmem : (rt, info) ∈ m) (hnd : (m.map Prod.fst).Nodup) : balGet m rt = some info := by
  induction m with
  | nil => simp at hmem
  | cons p rest ih =>
    obtain ⟨k, i0⟩ := p
    simp only [List.map_cons, List.nodup_cons] at hnd
    rcases List.mem_cons.1 hmem with h | h
    · injection h with h1 h2
      subst h1
      subst h2
      rw [balGet, if_pos rfl]
    · by_cases hk : rt = k
      · subst hk
        exact absurd (List.mem_map_of_mem Prod.fst h) hnd.1
      · rw [balGet, if_neg hk]
        exact ih h hnd.2

theorem digsGet_of_mem {l : List (D × Int)} {d : D} {v : Int}
    (hmem : (d, v) ∈ l) (hnd : (l.map Prod.fst).Nodup) : digsGet l d = v := by
  induction l with
  | nil => simp at hmem
  | cons p rest ih =>
    obtain ⟨k, w⟩ := p
    simp only [List.map_cons, List.nodup_cons] at hnd
    rcases List.mem_cons.1 hmem with h | h
    · injection h with h1 h2
      subst h1
      subst h2
      rw [digsGet, if_pos rfl]
    · by_cases hk : d = k
      · subst hk
        exact absurd (List.mem_map_of_mem Prod.fst h) hnd.1
      · rw [digsGet, if_neg hk]
        exact ih h hnd.2

theorem mem_of_digsGet_ne_zero {l : List (D × Int)} {d : D} (h : digsGet l d ≠ 0) :
    (d, digsGet l d) ∈ l := by
  induction l with
  | nil => simp [digsGet] at h
  | cons p rest ih =>
    obtain ⟨k, w⟩ := p
    by_cases hk : d = k
    · subst hk
      rw [digsGet, if_pos rfl]
      rw [digsGet, if_pos rfl] at h
      exact List.mem_cons_self _ _
    · rw [digsGet, if_neg hk]
      rw [digsGet, if_neg hk] at h
      exact List.mem_cons_of_mem _ (ih h)

theorem balWF_balSet {m : Balances D} {rt : String} {info : ContainerInfo D}
    (hWF : balWF m) (hinfo : (info.digs.map Prod.fst).Nodup) : balWF (balSet m rt info) := by
  refine ⟨nodup_keys_balSet m rt info hWF.1, fun p hp => ?_⟩
  rcases mem_balSet m rt info p hp with h | h
  · subst h
    exact hinfo
  · exact hWF.2 p h

theorem digs_nodup_of_balGet {m : Balances D} {rt : String} (hWF : balWF m) :
    ((((balGet m rt).getD ⟨[], []⟩).digs).map Prod.fst).Nodup := by
  cases h : balGet m rt with
  | none => simp
  | some info => exact hWF.2 (rt, info) (balGet_mem h)

theorem balWF_applyArchObs {m : Balances D} (rt arch : String) (dig : D) (hWF : balWF m) :
    balWF (applyArchObs m rt arch dig) := by
  exact balWF_balSet hWF (nodup_keys_digsSet _ _ _ (digs_nodup_of_balGet hWF))

theorem balWF_ensure {m : Balances D} (rt : String) (hWF : balWF m) : balWF (ensure m rt) := by
  rw [ensure]
  cases h : balGet m rt with
  | none => exact balWF_balSet hWF (by simp)
  | some info => exact hWF

theorem balWF_decStep {m : Balances D} (rt : String) (dig : D) (hWF : balWF m) :
    balWF (decStep rt m dig) := by
  exact balWF_balSet hWF (nodup_keys_digsSet _ _ _ (digs_nodup_of_balGet hWF))

theorem balWF_foldl_decStep {m : Balances D} (rt : String) (ds : List D) (hWF : balWF m) :
    balWF (ds.foldl (decStep rt) m) := by
  induction ds generalizing m with
  | nil => exact hWF
  | cons a ds ih => exact ih (balWF_decStep rt a hWF)

theorem balWF_applyTopObs {m : Balances D} (rt : String) (ds : List D) (hWF : balWF m) :
    balWF (applyTopObs m rt ds) := by
  exact balWF_foldl_decStep rt ds (balWF_ensure rt hWF)

theorem balWF_processTags {dOf : String → String → Except E D}
    {mOf : String → String → Except E (List D)} {repo arch : String} {isArch : Bool}
    {tags : List String} {m0 m1 : Balances D}
    (h : processTags dOf mOf repo arch isArch tags m0 = .ok m1) (hWF : balWF m0) :
    balWF m1 := by
  induction tags generalizing m0 with
  | nil =>
    rw [processTags] at h
    injection h with h
    subst h
    exact hWF
  | cons tag rest ih =>
    rw [processTags] at h
    cases hx : processTag dOf mOf repo tag arch isArch m0 with
    | error e => rw [hx] at h; exact absurd h (by simp)
    | ok m2 =>
      rw [hx] at h
      refine ih h ?_
      rw [processTag] at hx
      cases isArch with
      | true =>
        rw [if_pos rfl] at hx
        cases hd : dOf repo tag with
        | error e => rw [hd] at hx; exact absurd hx (by simp)
        | ok dig =>
          rw [hd] at hx
          injection hx with hx
          subst hx
          exact balWF_applyArchObs _ _ _ hWF
      | false =>
        rw [if_neg (by simp)] at hx
        cases hml : mOf repo tag with
        | error e => rw [hml] at hx; exact absurd hx (by simp)
        | ok ml =>
          rw [hml] at hx
          injection hx with hx
          subst hx
          exact balWF_applyTopObs _ _ hWF

theorem balWF_buildBalances {dOf : String → String → Except E D}
    {mOf : String → String → Except E (List D)} {allArchs validArch : List String}
    {repoTags : List (String × List String)} {m0 m : Balances D}
    (h : buildBalances dOf mOf allArchs validArch repoTags m0 = .ok m) (hWF : balWF m0) :
    balWF m := by
  induction repoTags generalizing m0 with
  | nil =>
    rw [buildBalances] at h
    injection h with h
    subst h
    exact hWF
  | cons p rest ih =>
    obtain ⟨repo, tags⟩ := p
    rw [buildBalances] at h
    by_cases hc : (classifyRepo allArchs validArch repo).2 = false
    · rw [if_pos hc] at h
      exact ih h hWF
    · rw [if_neg hc] at h
      cases hpt : processTags dOf mOf repo (classifyRepo allArchs validArch repo).1
          (decide ((classifyRepo allArchs validArch repo).1 ≠ "")) tags m0 with
      | error e => rw [hpt] at h; exact absurd h (by simp)
      | ok m2 =>
        rw [hpt] at h
        exact ih h (balWF_processTags hpt hWF)

theorem balWF_nil {D : Type} : balWF ([] : Balances D) := by
  constructor
  · simp
  · intro p hp
    simp at hp

end WFLemmas

section UpdatesLemmas

variable {D : Type} [DecidableEq D]

theorem mem_updatesOf_iff {m : Balances D} (hWF : balWF m) (rt : String) :
    (∃ u ∈ updatesOf m, u.repoTag = rt) ↔ ∃ d, balCount m rt d ≠ 0 := by
  constructor
  · rintro ⟨u, hu, hrt⟩
    obtain ⟨p, hp, hf⟩ := List.mem_filterMap.1 hu
    obtain ⟨p1, p2⟩ := p
    by_cases hcond : p2.digs.any (fun q => q.2 != 0) = true
    · rw [if_pos hcond] at hf
      injection hf with hf
      subst hf
      simp only at hrt
      subst hrt
      obtain ⟨q, hq, hqne⟩ := List.any_eq_true.1 hcond
      obtain ⟨q1, q2⟩ := q
      refine ⟨q1, ?_⟩
      have hbg : balGet m p1 = some p2 := mem_balGet hp hWF.1
      simp only [balCount, hbg]
      rw [digsGet_of_mem hq (hWF.2 (p1, p2) hp)]
      simpa using hqne
    · rw [if_neg hcond] at hf
      exact absurd hf (by simp)
  · rintro ⟨d, hd⟩
    cases hbg : balGet m rt with
    | none => rw [balCount, hbg] at hd; exact absurd rfl hd
    | some info =>
      rw [balCount, hbg] at hd
      have hmem : (d, digsGet info.digs d) ∈ info.digs := mem_of_digsGet_ne_zero hd
      have hcond : info.digs.any (fun q => q.2 != 0) = true :=
        List.any_eq_true.2 ⟨(d, digsGet info.digs d), hmem, by simpa using hd⟩
      refine ⟨⟨rt, info.archs⟩, ?_, rfl⟩
      exact List.mem_filterMap.2 ⟨(rt, info), balGet_mem hbg, by rw [if_pos hcond]⟩

theorem archs_of_mem_updatesOf {m : Balances D} (hWF : balWF m) {u : UpdateInfo}
    (hu : u ∈ updatesOf m) : u.archs = balArchs m u.repoTag := by
  obtain ⟨p, hp, hf⟩ := List.mem_filterMap.1 hu
  obtain ⟨p1, p2⟩ := p
  by_cases hcond : p2.digs.any (fun q => q.2 != 0) = true
  · rw [if_pos hcond] at hf
    injection hf with hf
    subst hf
    have hbg : balGet m p1 = some p2 := mem_balGet hp hWF.1
    simp only [balArchs, hbg]
  · rw [if_neg hcond] at hf
    exact absurd hf (by simp)

end UpdatesLemmas

section ErrorLemmas

variable {E D : Type} [DecidableEq D]
variable {dOf : String → String → Except E D} {mOf : String → String → Except E (List D)}
variable {allArchs validArch : List String}

theorem processTag_error_fetchError {repo tag : String} {m : Balances D} {e : E}
    (hc2 : (classifyRepo allArchs validArch repo).2 = true)
    (h : processTag dOf mOf repo tag (classifyRepo allArchs validArch repo).1
      (decide ((classifyRepo allArchs validArch repo).1 ≠ "")) m = .error e) :
    fetchError dOf mOf allArchs validArch repo tag = some e := by
  by_cases harch : (classifyRepo allArchs validArch repo).1 = ""
  · rw [processTag, if_neg (by simp [harch])] at h
    cases hml : mOf repo tag with
    | error e0 =>
      rw [hml] at h
      injection h with h
      subst h
      rw [fetchError, if_pos hc2, if_neg (by simp [harch]), hml]
    | ok ml => rw [hml] at h; exact absurd h (by simp)
  · rw [processTag, if_pos (by simp [harch])] at h
    cases hd : dOf repo tag with
    | error e0 =>
      rw [hd] at h
      injection h with h
      subst h
      rw [fetchError, if_pos hc2, if_pos (by simp [harch]), hd]
    | ok dig => rw [hd] at h; exact absurd h (by simp)

theorem processTag_ok_fetchError {repo tag : String} {m m2 : Balances D}
    (hc2 : (classifyRepo allArchs validArch repo).2 = true)
    (h : processTag dOf mOf repo tag (classifyRepo allArchs validArch repo).1
      (decide ((classifyRepo allArchs validArch repo).1 ≠ "")) m = .ok m2) :
    fetchError dOf mOf allArchs validArch repo tag = none := by
  by_cases harch : (classifyRepo allArchs validArch repo).1 = ""
  · rw [processTag, if_neg (by simp [harch])] at h
    cases hml : mOf repo tag with
    | error e0 => rw [hml] at h; exact absurd h (by simp)
    | ok ml => rw [fetchError, if_pos hc2, if_neg (by simp [harch]), hml]
  · rw [processTag, if_pos (by simp [harch])] at h
    cases hd : dOf repo tag with
    | error e0 => rw [hd] at h; exact absurd h (by simp)
    | ok dig => rw [fetchError, if_pos hc2, if_pos (by simp [harch]), hd]

theorem processTags_ok_fetchError {repo : String} {tags : List String} {m0 m1 : Balances D}
    (hc2 : (classifyRepo allArchs validArch repo).2 = true)
    (h : processTags dOf mOf repo (classifyRepo allArchs validArch repo).1
      (decide ((classifyRepo allArchs validArch repo).1 ≠ "")) tags m0 = .ok m1) :
    ∀ tag ∈ tags, fetchError dOf mOf allArchs validArch repo tag = none := by
  induction tags generalizing m0 with
  | nil => intro tag htag; simp at htag
  | cons t rest ih =>
    intro tag htag
    rw [processTags] at h
    cases hx : processTag dOf mOf repo t (classifyRepo allArchs validArch repo).1
        (decide ((classifyRepo allArchs validArch repo).1 ≠ "")) m0 with
    | error e => rw [hx] at h; exact absurd h (by simp)
    | ok m2 =>
      rw [hx] at h
      rcases List.mem_cons.1 htag with h1 | h1
      · subst h1
        exact processTag_ok_fetchError hc2 hx
      · exact ih h tag h1

theorem processTags_error_fetchError {repo : String} {tags : List String} {m0 : Balances D}
    {e : E} (hc2 : (classifyRepo allArchs validArch repo).2 = true)
    (h : processTags dOf mOf repo (classifyRepo allArchs validArch repo).1
      (decide ((classifyRepo allArchs validArch repo).1 ≠ "")) tags m0 = .error e) :
    ∃ tag ∈ tags, fetchError dOf mOf allArchs validArch repo tag = some e := by
  induction tags generalizing m0 with
  | nil => rw [processTags] at h; exact absurd h (by simp)
  | cons t rest ih =>
    rw [processTags] at h
    cases hx : processTag dOf mOf repo t (classifyRepo allArchs validArch repo).1
        (decide ((classifyRepo allArchs validArch repo).1 ≠ "")) m0 with
    | error e0 =>
      rw [hx] at h
      injection h with h
      subst h
      exact ⟨t, List.mem_cons_self _ _, processTag_error_fetchError hc2 hx⟩
    | ok m2 =>
      rw [hx] at h
      obtain ⟨tag, htag, hfe⟩ := ih h
      exact ⟨tag, List.mem_cons_of_mem _ htag, hfe⟩

theorem buildBalances_error_of_fetchError {repoTags : List (String × List String)}
    {m0 : Balances D}
    (hfail : ∃ p ∈ repoTags, ∃ tag ∈ p.2, (fetchError dOf mOf allArchs validArch p.1 tag).isSome) :
    ∃ e, buildBalances dOf mOf allArchs validArch repoTags m0 = .error e ∧
      ∃ p ∈ repoTags, ∃ tag ∈ p.2, fetchError dOf mOf allArchs validArch p.1 tag = some e := by
  induction repoTags generalizing m0 with
  | nil => obtain ⟨p, hp, _⟩ := hfail; simp at hp
  | cons q rest ih =>
    obtain ⟨repo, tags⟩ := q
    rw [buildBalances]
    by_cases hc : (classifyRepo allArchs validArch repo).2 = false
    · rw [if_pos hc]
      have hrest : ∃ p ∈ rest, ∃ tag ∈ p.2, (fetchError dOf mOf allArchs validArch p.1 tag).isSome := by
        obtain ⟨p, hp, tag, htag, hsome⟩ := hfail
        rcases List.mem_cons.1 hp with h1 | h1
        · subst h1
          rw [fetchError, if_neg (by simp [hc])] at hsome
          simp at hsome
        · exact ⟨p, h1, tag, htag, hsome⟩
      obtain ⟨e, he, p, hp, tag, htag, hfe⟩ := ih hrest
      exact ⟨e, he, p, List.mem_cons_of_mem _ hp, tag, htag, hfe⟩
    · rw [if_neg hc]
      have hc2 : (classifyRepo allArchs validArch repo).2 = true := by
        cases hx : (classifyRepo allArchs validArch repo).2
        · exact absurd hx hc
        · rfl
      cases hpt : processTags dOf mOf repo (classifyRepo allArchs validArch repo).1
          (decide ((classifyRepo allArchs validArch repo).1 ≠ "")) tags m0 with
      | error e =>
        obtain ⟨tag, htag, hfe⟩ := processTags_error_fetchError hc2 hpt
        exact ⟨e, rfl, (repo, tags), List.mem_cons_self _ _, tag, htag, hfe⟩
      | ok m2 =>
        have hnone := processTags_ok_fetchError hc2 hpt
        have hrest : ∃ p ∈ rest, ∃ tag ∈ p.2, (fetchError dOf mOf allArchs validArch p.1 tag).isSome := by
          obtain ⟨p, hp, tag, htag, hsome⟩ := hfail
          rcases List.mem_cons.1 hp with h1 | h1
          · subst h1
            rw [hnone tag htag] at hsome
            simp at hsome
          · exact ⟨p, h1, tag, htag, hsome⟩
        obtain ⟨e, he, p, hp, tag, htag, hfe⟩ := ih hrest
        exact ⟨e, he, p, List.mem_cons_of_mem _ hp, tag, htag, hfe⟩

end ErrorLemmas

section ObsLemmas

variable {D : Type} [DecidableEq D]

theorem balCount_applyObs (m : Balances D) (o : Obs D) (rt : String) (d : D) :
    balCount (applyObs m o) rt d = balCount m rt d + obsDelta o rt d := by
  cases o with
  | archObs rt2 arch dig => rw [applyObs, balCount_applyArchObs, obsDelta]
  | topObs rt2 ds =>
    rw [applyObs, balCount_applyTopObs, obsDelta]
    by_cases h : rt = rt2
    · simp [h]
      ring
    · simp [h]

theorem balCount_foldl_applyObs (l : List (Obs D)) (m : Balances D) (rt : String) (d : D) :
    balCount (l.foldl applyObs m) rt d =
      balCount m rt d + (l.map (fun o => obsDelta o rt d)).sum := by
  induction l generalizing m with
  | nil => simp
  | cons o l ih =>
    rw [List.foldl_cons, ih, balCount_applyObs, List.map_cons, List.sum_cons]
    ring

theorem mem_keys_applyArchObs (m : Balances D) (rt arch : String) (dig : D) (rt2 : String)
    (d2 : D) :
    d2 ∈ (((balGet (applyArchObs m rt arch dig) rt2).getD ⟨[], []⟩).digs).map Prod.fst ↔
      d2 ∈ (((balGet m rt2).getD ⟨[], []⟩).digs).map Prod.fst ∨ (rt2 = rt ∧ d2 = dig) := by
  by_cases h1 : rt2 = rt
  · subst h1
    rw [applyArchObs, balGet_balSet_self]
    simp only [Option.getD_some]
    rw [mem_keys_digsSet]
    tauto
  · rw [applyArchObs, balGet_balSet_ne _ _ _ _ h1]
    simp [h1]

theorem mem_keys_ensure (m : Balances D) (rt rt2 : String) (d2 : D) :
    d2 ∈ (((balGet (ensure m rt) rt2).getD ⟨[], []⟩).digs).map Prod.fst ↔
      d2 ∈ (((balGet m rt2).getD ⟨[], []⟩).digs).map Prod.fst := by
  rw [ensure]
  cases h : balGet m rt with
  | some info => exact Iff.rfl
  | none =>
    by_cases h1 : rt2 = rt
    · subst h1
      rw [balGet_balSet_self, h]
      simp
    · rw [balGet_balSet_ne _ _ _ _ h1]

theorem mem_keys_decStep (m : Balances D) (rt : String) (dig : D) (rt2 : String) (d2 : D) :
    d2 ∈ (((balGet (decStep rt m dig) rt2).getD ⟨[], []⟩).digs).map Prod.fst ↔
      d2 ∈ (((balGet m rt2).getD ⟨[], []⟩).digs).map Prod.fst ∨ (rt2 = rt ∧ d2 = dig) := by
  by_cases h1 : rt2 = rt
  · subst h1
    rw [decStep, balGet_balSet_self]
    simp only [Option.getD_some]
    rw [mem_keys_digsSet]
    tauto
  · rw [decStep, balGet_balSet_ne _ _ _ _ h1]
    simp [h1]

theorem mem_keys_foldl_decStep (ds : List D) (m : Balances D) (rt rt2 : String) (d2 : D) :
    d2 ∈ (((balGet (ds.foldl (decStep rt) m) rt2).getD ⟨[], []⟩).digs).map Prod.fst ↔
      d2 ∈ (((balGet m rt2).getD ⟨[], []⟩).digs).map Prod.fst ∨ (rt2 = rt ∧ d2 ∈ ds) := by
  induction ds generalizing m with
  | nil => simp
  | cons a ds ih =>
    rw [List.foldl_cons, ih, mem_keys_decStep]
    constructor
    · rintro ((h | ⟨h1, h2⟩) | ⟨h1, h2⟩)
      · exact Or.inl h
      · subst h2
        exact Or.inr ⟨h1, List.mem_cons_self _ _⟩
      · exact Or.inr ⟨h1, List.mem_cons_of_mem _ h2⟩
    · rintro (h | ⟨h1, h2⟩)
      · exact Or.inl (Or.inl h)
      · rcases List.mem_cons.1 h2 with h2 | h2
        · exact Or.inl (Or.inr ⟨h1, h2⟩)
        · exact Or.inr ⟨h1, h2⟩

theorem mem_keys_applyObs (m : Balances D) (o : Obs D) (rt : String) (d2 : D) :
    d2 ∈ (((balGet (applyObs m o) rt).getD ⟨[], []⟩).digs).map Prod.fst ↔
      d2 ∈ (((balGet m rt).getD ⟨[], []⟩).digs).map Prod.fst ∨ touchesObs o rt d2 := by
  cases o with
  | archObs rt2 arch dig => rw [applyObs, mem_keys_applyArchObs, touchesObs]
  | topObs rt2 ds =>
    rw [applyObs, applyTopObs, mem_keys_foldl_decStep, mem_keys_ensure, touchesObs]

theorem mem_keys_foldl_applyObs (l : List (Obs D)) (m : Balances D) (rt : String) (d2 : D) :
    d2 ∈ (((balGet (l.foldl applyObs m) rt).getD ⟨[], []⟩).digs).map Prod.fst ↔
      d2 ∈ (((balGet m rt).getD ⟨[], []⟩).digs).map Prod.fst ∨ ∃ o ∈ l, touchesObs o rt d2 := by
  induction l generalizing m with
  | nil => simp
  | cons o l ih =>
    rw [List.foldl_cons, ih, mem_keys_applyObs]
    constructor
    · rintro ((h | h) | ⟨o2, ho2, ht⟩)
      · exact Or.inl h
      · exact Or.inr ⟨o, List.mem_cons_self _ _, h⟩
      · exact Or.inr ⟨o2, List.mem_cons_of_mem _ ho2, ht⟩
    · rintro (h | ⟨o2, ho2, ht⟩)
      · exact Or.inl (Or.inl h)
      · rcases List.mem_cons.1 ho2 with h2 | h2
        · subst h2
          exact Or.inl (Or.inr ht)
        · exact Or.inr ⟨o2, h2, ht⟩

theorem balWF_applyObs {m : Balances D} (o : Obs D) (hWF : balWF m) :
    balWF (applyObs m o) := by
  cases o with
  | archObs rt arch dig => exact balWF_applyArchObs rt arch dig hWF
  | topObs rt ds => exact balWF_applyTopObs rt ds hWF

theorem balWF_foldl_applyObs {m : Balances D} (l : List (Obs D)) (hWF : balWF m) :
    balWF (l.foldl applyObs m) := by
  induction l generalizing m with
  | nil => exact hWF
  | cons o l ih => exact ih (balWF_applyObs o hWF)

theorem entry_of_mem_keys {l : List (D × Int)} {k : D} (hk : k ∈ l.map Prod.fst)
    (hnd : (l.map Prod.fst).Nodup) : (k, digsGet l k) ∈ l := by
  obtain ⟨p, hp, hfst⟩ := List.mem_map.1 hk
  obtain ⟨a, b⟩ := p
  simp only at hfst
  rw [← hfst, digsGet_of_mem hp hnd]
  exact hp

theorem digs_perm_of {l1 l2 : List (D × Int)} (h1 : (l1.map Prod.fst).Nodup)
    (h2 : (l2.map Prod.fst).Nodup)
    (hmem : ∀ x, x ∈ l1.map Prod.fst ↔ x ∈ l2.map Prod.fst)
    (hval : ∀ dd, digsGet l1 dd = digsGet l2 dd) : l1.Perm l2 := by
  rw [List.perm_ext_iff_of_nodup (h1.of_map) (h2.of_map)]
  intro p
  obtain ⟨k, v⟩ := p
  constructor
  · intro hp
    have hv : digsGet l1 k = v := digsGet_of_mem hp h1
    have hk2 : k ∈ l2.map Prod.fst := (hmem k).1 (List.mem_map_of_mem Prod.fst hp)
    have hentry := entry_of_mem_keys hk2 h2
    rw [← hval k, hv] at hentry
    exact hentry
  · intro hp
    have hv : digsGet l2 k = v := digsGet_of_mem hp h2
    have hk1 : k ∈ l1.map Prod.fst := (hmem k).2 (List.mem_map_of_mem Prod.fst hp)
    have hentry := entry_of_mem_keys hk1 h1
    rw [hval k, hv] at hentry
    exact hentry

end ObsLemmas

section InventoryLemmas

variable {E : Type}

theorem getAllRepoTags_foldl (tagsOf : String → Except E (List String)) (repos : List String)
    (acc : List (String × List String) × Option E) :
    (repos.foldl (fun acc repo =>
      match tagsOf repo with
      | .ok tags => (acc.1 ++ [(repo, tags)], acc.2)
      | .error e =>
        match acc.2 with
        | some e0 => (acc.1, some e0)
        | none => (acc.1, some e)) acc) =
      (acc.1 ++ tagSuccesses tagsOf repos,
        match acc.2 with
        | some e0 => some e0
        | none => firstTagError tagsOf repos) := by
  induction repos generalizing acc with
  | nil =>
    obtain ⟨a1, a2⟩ := acc
    cases a2 <;> simp [tagSuccesses, firstTagError]
  | cons r rest ih =>
    rw [List.foldl_cons, ih]
    cases ht : tagsOf r with
    | ok tags => simp [tagSuccesses, firstTagError, ht]
    | error e1 =>
      obtain ⟨a1, a2⟩ := acc
      cases a2 with
      | some e0 => simp [tagSuccesses, firstTagError, ht]
      | none => simp [tagSuccesses, firstTagError, ht]

theorem firstTagError_some {tagsOf : String → Except E (List String)} {repos : List String}
    {e : E} (h : firstTagError tagsOf repos = some e) : ∃ r ∈ repos, tagsOf r = .error e := by
  induction repos with
  | nil => rw [firstTagError] at h; exact absurd h (by simp)
  | cons r rest ih =>
    rw [firstTagError] at h
    cases ht : tagsOf r with
    | ok tags =>
      rw [ht] at h
      obtain ⟨r2, hr2, he⟩ := ih h
      exact ⟨r2, List.mem_cons_of_mem _ hr2, he⟩
    | error e1 =>
      rw [ht] at h
      injection h with h
      subst h
      exact ⟨r, List.mem_cons_self _ _, ht⟩

theorem getAllRepoTags_eq (catalog : Except E (List String))
    (tagsOf : String → Except E (List String)) (repos : List String) (hc : catalog = .ok repos) :
    getAllRepoTags catalog tagsOf =
      .ok (tagSuccesses tagsOf repos, firstTagError tagsOf repos) := by
  subst hc
  simp [getAllRepoTags, getAllRepoTags_foldl]

end InventoryLemmas

section ClassifierLemmas

theorem wantedArch_eq (pfx : String) (l : List String) :
    wantedArch pfx l = decide (pfx ∈ l) := by
  induction l with
  | nil => simp [wantedArch]
  | cons v rest ih =>
    by_cases h : pfx = v <;> simp [wantedArch, h, ih]

theorem processArch_eq (pfx : String) (allArchs validArch : List String) :
    processArch pfx allArchs validArch =
      if pfx ∈ allArchs then (pfx, decide (pfx ∈ validArch)) else ("", true) := by
  induction allArchs with
  | nil => simp [processArch]
  | cons arch rest ih =>
    by_cases h : pfx = arch
    · subst h
      simp [processArch, wantedArch_eq]
    · simp [processArch, h, ih]

end ClassifierLemmas

/-- C1: after reconciliation completes without error, the count stored for
every repoTag and digest equals the number of architecture-image
observations of that digest (one increment per selected-architecture
repo/tag fetch yielding it) minus the number of times the digest is declared
across the top-level manifest lists for that repoTag (one decrement per
manifest-list entry). -/
theorem C1_balance_invariant {E D : Type} [DecidableEq D]
    (dOf : String → String → Except E D) (mOf : String → String → Except E (List D))
    (allArchs validArch : List String) (repoTags : List (String × List String))
    (m : Balances D) (h : buildBalances dOf mOf allArchs validArch repoTags [] = .ok m)
    (rt : String) (d : D) :
    balCount m rt d = (archIncCount dOf allArchs validArch repoTags rt d : Int) -
      (topDecCount mOf allArchs validArch repoTags rt d : Int) := by
  have hc := balCount_buildBalances rt d h
  have h0 : balCount ([] : Balances D) rt d = 0 := rfl
  rw [h0] at hc
  rw [hc]
  ring

theorem C1_balance_invariant_witness :
    balCount [("r:t", ⟨[(1, 0), (2, -1)], ["amd64"]⟩)] "r:t" 2 =
      (archIncCount (fun _ _ => (Except.ok 1 : Except Nat Nat)) ["amd64", "s390x"] ["amd64"]
        [("amd64/r", ["t"]), ("r", ["t"])] "r:t" 2 : Int) -
      (topDecCount (fun _ _ => (Except.ok [1, 2] : Except Nat (List Nat))) ["amd64", "s390x"]
        ["amd64"] [("amd64/r", ["t"]), ("r", ["t"])] "r:t" 2 : Int) :=
  C1_balance_invariant (fun _ _ => (Except.ok 1 : Except Nat Nat))
    (fun _ _ => (Except.ok [1, 2] : Except Nat (List Nat))) ["amd64", "s390x"] ["amd64"]
    [("amd64/r", ["t"]), ("r", ["t"])] [("r:t", ⟨[(1, 0), (2, -1)], ["amd64"]⟩)]
    (by decide) "r:t" 2

/-- C2: the update records are exactly the repoTags whose balance holds a
digest with non-zero count, and a registry whose top-level lists declare
exactly the multiset of digests produced by the selected architecture images
yields zero update records. -/
theorem C2_updates_exact {E D : Type} [DecidableEq D]
    (dOf : String → String → Except E D) (mOf : String → String → Except E (List D))
    (allArchs validArch : List String) (repoTags : List (String × List String))
    (m : Balances D) (h : buildBalances dOf mOf allArchs validArch repoTags [] = .ok m) :
    getUpdates dOf mOf allArchs validArch repoTags = .ok (updatesOf m) ∧
    (∀ rt, (∃ u ∈ updatesOf m, u.repoTag = rt) ↔ ∃ d, balCount m rt d ≠ 0) ∧
    ((∀ rt d, archIncCount dOf allArchs validArch repoTags rt d =
        topDecCount mOf allArchs validArch repoTags rt d) →
      getUpdates dOf mOf allArchs validArch repoTags = .ok []) := by
  have hWF := balWF_buildBalances h balWF_nil
  refine ⟨by simp [getUpdates, h], fun rt => mem_updatesOf_iff hWF rt, fun hbal => ?_⟩
  have hzero : ∀ rt d, balCount m rt d = 0 := by
    intro rt d
    have hc := balCount_buildBalances rt d h
    have h0 : balCount ([] : Balances D) rt d = 0 := rfl
    rw [h0] at hc
    rw [hc, hbal rt d]
    ring
  cases hu : updatesOf m with
  | nil => simp [getUpdates, h, hu]
  | cons u us =>
    have hmem : ∃ v ∈ updatesOf m, v.repoTag = u.repoTag := ⟨u, by simp [hu], rfl⟩
    obtain ⟨d, hd⟩ := (mem_updatesOf_iff hWF u.repoTag).1 hmem
    exact absurd (hzero u.repoTag d) hd

theorem C2_updates_exact_witness :
    getUpdates (fun _ _ => (Except.ok 1 : Except Nat Nat))
      (fun _ _ => (Except.ok [1] : Except Nat (List Nat))) ["a"] ["a"]
      [("a/r", ["t"]), ("r", ["t"])] = .ok (updatesOf [("r:t", ⟨[(1, 0)], ["a"]⟩)]) :=
  (C2_updates_exact (fun _ _ => (Except.ok 1 : Except Nat Nat))
    (fun _ _ => (Except.ok [1] : Except Nat (List Nat))) ["a"] ["a"]
    [("a/r", ["t"]), ("r", ["t"])] [("r:t", ⟨[(1, 0)], ["a"]⟩)] (by decide)).1

/-- C3: a digest declared by a top-level list but produced by no selected
architecture image, or produced by an architecture image but declared by no
top-level list (even for a fresh repoTag key), leaves a non-zero count and
puts the repoTag into the update records. -/
theorem C3_unmatched_digest_flagged {E D : Type} [DecidableEq D]
    (dOf : String → String → Except E D) (mOf : String → String → Except E (List D))
    (allArchs validArch : List String) (repoTags : List (String × List String))
    (m : Balances D) (rt : String) (d : D)
    (h : buildBalances dOf mOf allArchs validArch repoTags [] = .ok m)
    (hmis : (0 < archIncCount dOf allArchs validArch repoTags rt d ∧
        topDecCount mOf allArchs validArch repoTags rt d = 0) ∨
      (0 < topDecCount mOf allArchs validArch repoTags rt d ∧
        archIncCount dOf allArchs validArch repoTags rt d = 0)) :
    (∃ u ∈ updatesOf m, u.repoTag = rt) ∧ balCount m rt d ≠ 0 ∧
      getUpdates dOf mOf allArchs validArch repoTags = .ok (updatesOf m) := by
  have hWF := balWF_buildBalances h balWF_nil
  have hc := balCount_buildBalances rt d h
  have h0 : balCount ([] : Balances D) rt d = 0 := rfl
  rw [h0] at hc
  have hne : balCount m rt d ≠ 0 := by
    rcases hmis with ⟨h1, h2⟩ | ⟨h1, h2⟩ <;> rw [hc] <;> omega
  exact ⟨(mem_updatesOf_iff hWF rt).2 ⟨d, hne⟩, hne, by simp [getUpdates, h]⟩

theorem C3_unmatched_digest_flagged_witness :
    balCount [("r:t", ⟨[(2, 1), (1, -1)], ["a"]⟩)] "r:t" 2 ≠ 0 :=
  (C3_unmatched_digest_flagged (fun _ _ => (Except.ok 2 : Except Nat Nat))
    (fun _ _ => (Except.ok [1] : Except Nat (List Nat))) ["a"] ["a"]
    [("a/r", ["t"]), ("r", ["t"])] [("r:t", ⟨[(2, 1), (1, -1)], ["a"]⟩)] "r:t" 2
    (by decide) (Or.inl (by decide))).2.1

/-- C4: the classifier returns `("", true)` for a first segment that is not
a known architecture, `(prefix, false)` for a known architecture outside the
processing list, and `(prefix, true)` for one inside it; in particular the
three documented example calls evaluate as the spec states. -/
theorem C4_classifier :
    (∀ pfx allArchs validArch, processArch pfx allArchs validArch =
      if pfx ∈ allArchs then (pfx, decide (pfx ∈ validArch)) else ("", true)) ∧
    processArch "arm64" ["amd64", "arm64"] ["amd64"] = ("arm64", false) ∧
    processArch "myimage" ["amd64", "arm64"] ["amd64"] = ("", true) ∧
    processArch "amd64" ["amd64", "arm64"] ["amd64", "arm64"] = ("amd64", true) :=
  ⟨processArch_eq, by decide, by decide, by decide⟩

/-- C5: the plan emitter is a pure function producing, per update record and
in record order, exactly the create/amend line (top-level path, then one
architecture-qualified path per `archs` entry, duplicates preserved) and then
the push line (top-level path only). -/
theorem C5_emitter (updates : List UpdateInfo) (domain : String) :
    pushUpdates updates domain =
      updates.flatMap (fun u => [specCreateLine domain u, specPushLine domain u]) := by
  induction updates with
  | nil => simp [pushUpdates]
  | cons u rest ih =>
    rw [pushUpdates, List.flatMap_cons, ih]
    simp [specCreateLine, specPushLine]

/-- C6: folding the same multiset of architecture-image and top-level-list
observations into an empty balance map in any two orders yields the same
per-digest counts for every repoTag, and hence the same
sum-of-absolute-values. -/
theorem C6_order_invariance {D : Type} [DecidableEq D] (l1 l2 : List (Obs D))
    (hperm : l1.Perm l2) :
    (∀ rt d, balCount (l1.foldl applyObs ([] : Balances D)) rt d =
      balCount (l2.foldl applyObs ([] : Balances D)) rt d) ∧
    (∀ rt, sumAbs (l1.foldl applyObs ([] : Balances D)) rt =
      sumAbs (l2.foldl applyObs ([] : Balances D)) rt) := by
  have hcount : ∀ rt d, balCount (l1.foldl applyObs ([] : Balances D)) rt d =
      balCount (l2.foldl applyObs ([] : Balances D)) rt d := by
    intro rt d
    rw [balCount_foldl_applyObs, balCount_foldl_applyObs]
    rw [(hperm.map (fun o => obsDelta o rt d)).sum_eq]
  refine ⟨hcount, fun rt => ?_⟩
  have hwfA := balWF_foldl_applyObs l1 (@balWF_nil D)
  have hwfB := balWF_foldl_applyObs l2 (@balWF_nil D)
  have hndA :
      ((((balGet (l1.foldl applyObs ([] : Balances D)) rt).getD ⟨[], []⟩).digs).map
        Prod.fst).Nodup := digs_nodup_of_balGet hwfA
  have hndB :
      ((((balGet (l2.foldl applyObs ([] : Balances D)) rt).getD ⟨[], []⟩).digs).map
        Prod.fst).Nodup := digs_nodup_of_balGet hwfB
  have hmem : ∀ x,
      x ∈ ((((balGet (l1.foldl applyObs ([] : Balances D)) rt).getD ⟨[], []⟩).digs).map Prod.fst) ↔
      x ∈ ((((balGet (l2.foldl applyObs ([] : Balances D)) rt).getD ⟨[], []⟩).digs).map Prod.fst) := by
    intro x
    rw [mem_keys_foldl_applyObs, mem_keys_foldl_applyObs]
    have hbase : x ∈ (((balGet ([] : Balances D) rt).getD ⟨[], []⟩).digs).map Prod.fst ↔ False := by
      simp [balGet]
    rw [hbase]
    constructor
    · rintro (h | ⟨o, ho, ht⟩)
      · exact absurd h id
      · exact Or.inr ⟨o, hperm.mem_iff.1 ho, ht⟩
    · rintro (h | ⟨o, ho, ht⟩)
      · exact absurd h id
      · exact Or.inr ⟨o, hperm.mem_iff.2 ho, ht⟩
  have hval : ∀ dd,
      digsGet (((balGet (l1.foldl applyObs ([] : Balances D)) rt).getD ⟨[], []⟩).digs) dd =
      digsGet (((balGet (l2.foldl applyObs ([] : Balances D)) rt).getD ⟨[], []⟩).digs) dd := by
    intro dd
    have hcd := hcount rt dd
    rw [balCount_eq_getD, balCount_eq_getD] at hcd
    exact hcd
  have hdigsperm := digs_perm_of hndA hndB hmem hval
  rw [sumAbs, sumAbs]
  exact (hdigsperm.map (fun p => |p.2|)).sum_eq

theorem C6_order_invariance_witness :
    balCount ([Obs.archObs "r:t" "a" 1, Obs.topObs "r:t" [1, 2]].foldl applyObs
      ([] : Balances Nat)) "r:t" 2 =
      balCount ([Obs.topObs "r:t" [1, 2], Obs.archObs "r:t" "a" 1].foldl applyObs
        ([] : Balances Nat)) "r:t" 2 ∧
    sumAbs ([Obs.archObs "r:t" "a" 1, Obs.topObs "r:t" [1, 2]].foldl applyObs
      ([] : Balances Nat)) "r:t" =
      sumAbs ([Obs.topObs "r:t" [1, 2], Obs.archObs "r:t" "a" 1].foldl applyObs
        ([] : Balances Nat)) "r:t" :=
  ⟨(C6_order_invariance [Obs.archObs "r:t" "a" 1, Obs.topObs "r:t" [1, 2]]
      [Obs.topObs "r:t" [1, 2], Obs.archObs "r:t" "a" 1]
      (List.Perm.swap (Obs.topObs "r:t" [1, 2]) (Obs.archObs "r:t" "a" 1) [])).1 "r:t" 2,
    (C6_order_invariance [Obs.archObs "r:t" "a" 1, Obs.topObs "r:t" [1, 2]]
      [Obs.topObs "r:t" [1, 2], Obs.archObs "r:t" "a" 1]
      (List.Perm.swap (Obs.topObs "r:t" [1, 2]) (Obs.archObs "r:t" "a" 1) [])).2 "r:t"⟩

/-- C7: if any digest or manifest-list fetch performed by the crawl fails,
reconciliation returns an error — the error of a failing fetch — and no
update records at all. -/
theorem C7_fetch_failure_aborts {E D : Type} [DecidableEq D]
    (dOf : String → String → Except E D) (mOf : String → String → Except E (List D))
    (allArchs validArch : List String) (repoTags : List (String × List String))
    (hfail : ∃ p ∈ repoTags, ∃ tag ∈ p.2,
      (fetchError dOf mOf allArchs validArch p.1 tag).isSome) :
    ∃ e, getUpdates dOf mOf allArchs validArch repoTags = .error e ∧
      ∃ p ∈ repoTags, ∃ tag ∈ p.2, fetchError dOf mOf allArchs validArch p.1 tag = some e := by
  obtain ⟨e, he, hw⟩ :=
    @buildBalances_error_of_fetchError E D _ dOf mOf allArchs validArch repoTags [] hfail
  exact ⟨e, by simp [getUpdates, he], hw⟩

theorem C7_fetch_failure_aborts_witness :
    (getUpdates (fun _ _ => (Except.ok 1 : Except Nat Nat))
      (fun _ _ => (Except.error 5 : Except Nat (List Nat))) ["a"] ["a"]
      [("r", ["t"])]).isOk = false := by
  obtain ⟨e, he, _⟩ := C7_fetch_failure_aborts (fun _ _ => (Except.ok 1 : Except Nat Nat))
    (fun _ _ => (Except.error 5 : Except Nat (List Nat))) ["a"] ["a"] [("r", ["t"])] (by decide)
  rw [he]
  rfl

/-- C8 counterexample: a failing tag-listing task does not make the
collection return only the error — `getAllRepoTags` returns the partially
merged map TOGETHER WITH the error, so the partial results of successfully
completed tasks are returned to its caller. -/
theorem C8_counterexample :
    getAllRepoTags (Except.ok ["a", "b"] : Except Nat (List String))
      (fun r => if r = "a" then Except.ok ["t"] else Except.error 7) =
      Except.ok ([("a", ["t"])], some 7) := by decide

/-- C8 (amended): a failing tag-listing task makes the collection carry the
error of a failing task; the partially merged map is returned alongside that
error, and the caller `run` discards it, propagating only the error. -/
theorem C8_inventory_failfast {E D : Type} [DecidableEq D]
    (catalog : Except E (List String)) (tagsOf : String → Except E (List String))
    (repos : List String) (e : E) (dOf : String → String → Except E D)
    (mOf : String → String → Except E (List D)) (allArchs validArch : List String)
    (hc : catalog = .ok repos) (hf : firstTagError tagsOf repos = some e) :
    getAllRepoTags catalog tagsOf = .ok (tagSuccesses tagsOf repos, some e) ∧
    (∃ r ∈ repos, tagsOf r = .error e) ∧
    runPipeline catalog tagsOf dOf mOf allArchs validArch = .error e := by
  have hg := getAllRepoTags_eq catalog tagsOf repos hc
  rw [hf] at hg
  refine ⟨hg, firstTagError_some hf, ?_⟩
  simp [runPipeline, hg]

theorem C8_inventory_failfast_witness :
    runPipeline (Except.ok ["a", "b"] : Except Nat (List String))
      (fun r => if r = "a" then Except.ok ["t"] else Except.error 7)
      (fun _ _ => (Except.ok 1 : Except Nat Nat))
      (fun _ _ => (Except.ok [1] : Except Nat (List Nat))) ["x"] ["x"] = .error 7 :=
  (C8_inventory_failfast (Except.ok ["a", "b"])
    (fun r => if r = "a" then Except.ok ["t"] else Except.error 7) ["a", "b"] 7
    (fun _ _ => (Except.ok 1 : Except Nat Nat))
    (fun _ _ => (Except.ok [1] : Except Nat (List Nat))) ["x"] ["x"] rfl (by decide)).2.2

/-- C9: the missing-domain check exits before any network activity, but the
empty-architecture-list checks are dead code — Go `strings.Split` of the
empty string on "," yields `[""]` (length 1), so an empty `-a` flag passes
validation and the program proceeds with `[""]` as its architecture list
instead of terminating fatally. -/
theorem C9_empty_arch_list_accepted :
    parseArgs ["registry.example"] "amd64,s390x,ppc64le,arm64" "" =
      ConfigResult.proceed ["amd64", "s390x", "ppc64le", "arm64"] [""] "registry.example" ∧
    parseArgs [] "amd64,s390x,ppc64le,arm64" "amd64" = ConfigResult.usageExit :=
  ⟨by decide, by decide⟩

/-- C10: an update record to which no selected architecture image
contributed an observation has an empty `archs` list, and its emitted create
command references the top-level image path with no architecture-qualified
paths after it. -/
theorem C10_no_contributors_empty_create {E D : Type} [DecidableEq D]
    (dOf : String → String → Except E D) (mOf : String → String → Except E (List D))
    (allArchs validArch : List String) (repoTags : List (String × List String))
    (m : Balances D) (u : UpdateInfo) (domain : String)
    (h : buildBalances dOf mOf allArchs validArch repoTags [] = .ok m)
    (hu : u ∈ updatesOf m)
    (hnoc : archContribs allArchs validArch repoTags u.repoTag = []) :
    u.archs = [] ∧
      pushUpdates [u] domain =
        [goJoin " " (createCmd ++ [domain ++ "/" ++ u.repoTag]),
          goJoin " " (pushCmd ++ [domain ++ "/" ++ u.repoTag])] := by
  have hWF := balWF_buildBalances h balWF_nil
  have ha := archs_of_mem_updatesOf hWF hu
  have hb := balArchs_buildBalances u.repoTag h
  have h0 : balArchs ([] : Balances D) u.repoTag = [] := rfl
  rw [h0, List.nil_append, hnoc] at hb
  rw [hb] at ha
  refine ⟨ha, ?_⟩
  rw [pushUpdates, pushUpdates]
  simp [ha]

theorem C10_no_contributors_empty_create_witness :
    pushUpdates [⟨"r:t", []⟩] "d" =
      [goJoin " " (createCmd ++ ["d" ++ "/" ++ "r:t"]),
        goJoin " " (pushCmd ++ ["d" ++ "/" ++ "r:t"])] :=
  (C10_no_contributors_empty_create (fun _ _ => (Except.ok 1 : Except Nat Nat))
    (fun _ _ => (Except.ok [1] : Except Nat (List Nat))) ["a"] ["a"] [("r", ["t"])]
    [("r:t", ⟨[(1, -1)], []⟩)] ⟨"r:t", []⟩ "d" (by decide) (by decide) (by decide)).2
